import Mathlib

/-!
Verification development for the numeric-kernel benchmarking core
(`Project A2`: `a2_kernels.cpp`, `a2_utils.cpp`, `a2_benchmark.cpp`).

Modelling conventions:
* C++ `int` / `size_t` loop counters and indices are modelled as unbounded
  `Nat`/`Int` (the benchmark dimensions stay far below any overflow, except
  where a theorem explicitly exhibits 32-bit wraparound, which is then
  modelled with an explicit `% 2^32`).
* C++ `double` arithmetic on densities/percentiles is modelled by exact
  rational arithmetic (`ℚ`); every concrete evaluation below only involves
  values on which double arithmetic is exact, and the universally
  quantified theorems do not depend on rounding.
* C++ `float` matrix entries are modelled as `ℚ` for the claims that are
  insensitive to rounding (overwrite/zero-row/fallback structure); the
  GEMM doubling claim is about the accumulation arithmetic itself, so the
  GEMM loop nest is additionally embedded with faithful IEEE-754 binary32
  round-to-nearest-even semantics (`fp32round` below).
* `std::mt19937_64` is implemented exactly as the C++ standard specifies
  (checked against the standard's 10000th-output test vector).
  `std::uniform_int_distribution` / `std::uniform_real_distribution` are
  implementation-defined by the standard; they are modelled after
  libstdc++, the toolchain the repository builds with (downscaling
  rejection for the integer distribution, one 64-bit draw per `float`
  `generate_canonical`).
-/

namespace A2

/-! ## Model of the C++ standard library random facilities -/

/-- mt19937_64 state: 312 words of 64 bits plus the read position
(`_M_p` in libstdc++). The word array is packed little-endian into one
natural number (word i occupies bits [64*i, 64*i+64)), which keeps
kernel reduction shallow. -/
structure MT where
  state : Nat
  idx : Nat
deriving Repr, DecidableEq

/-- Word i of a packed mt19937_64 state. -/
def mtWord (s i : Nat) : Nat := (s >>> (64 * i)) &&& (2^64 - 1)

/-- Overwrite word i of a packed mt19937_64 state. -/
def mtSetWord (s i v : Nat) : Nat :=
  s - (mtWord s i <<< (64 * i)) + (v <<< (64 * i))

/-- Seeding multiplier f = 6364136223846793005 of mt19937_64's
`seed(result_type)`. -/
def mtMult : Nat := 6364136223846793005

/-- Twist xor constant a of mt19937_64. -/
def mtMatrixA : Nat := 0xB5026F5AA96619E9

/-- Upper (w-r = 33 bit) mask of mt19937_64. -/
def mtUpperMask : Nat := 0xFFFFFFFF80000000

/-- Lower (r = 31 bit) mask of mt19937_64. -/
def mtLowerMask : Nat := 0x7FFFFFFF

/-- Tail of the seeded state: x_i = f * (x_{i-1} xor (x_{i-1} >> 62)) + i
mod 2^64, packed into the accumulator word by word. -/
def mtSeedTail : Nat → Nat → Nat → Nat → Nat
  | 0, _, _, acc => acc
  | fuel+1, i, prev, acc =>
    let x := (mtMult * (Nat.xor prev (prev >>> 62)) + i) % 2^64
    mtSeedTail fuel (i+1) x (Nat.lor acc (x <<< (64 * i)))

/-- `std::mt19937_64 rng(seed)`. -/
def mtInit (seed : Nat) : MT :=
  let s0 := seed % 2^64
  ⟨mtSeedTail 311 1 s0 s0, 312⟩

/-- One in-place step of the mt19937_64 twist. -/
def mtTwistStep (s i : Nat) : Nat :=
  let x := Nat.lor (Nat.land (mtWord s i) mtUpperMask)
                   (Nat.land (mtWord s ((i+1) % 312)) mtLowerMask)
  let xA := Nat.xor (x >>> 1) (if x % 2 = 1 then mtMatrixA else 0)
  mtSetWord s i (Nat.xor (mtWord s ((i+156) % 312)) xA)

/-- The full state twist (`_M_gen_rand`), updating the words sequentially
in place exactly as libstdc++ does. -/
def mtTwist (s : Nat) : Nat := (List.range 312).foldl mtTwistStep s

/-- One output of mt19937_64: twist when exhausted, then temper the
current word. -/
def mtNext (g : MT) : Nat × MT :=
  let g := if 312 ≤ g.idx then MT.mk (mtTwist g.state) 0 else g
  let y0 := mtWord g.state g.idx
  let y1 := Nat.xor y0 (Nat.land (y0 >>> 29) 0x5555555555555555)
  let y2 := Nat.xor y1 (Nat.land (y1 <<< 17) 0x71D67FFFEDA60000)
  let y3 := Nat.xor y2 (Nat.land (y2 <<< 37) 0xFFF7EEE000000000)
  let y4 := Nat.xor y3 (y3 >>> 43)
  (y4, MT.mk g.state (g.idx + 1))

/-- Rejection loop of libstdc++'s `_S_nd` (Lemire's nearly divisionless
downscaling): redraw while the low 64 bits of `raw * uerange` stay below
the threshold. The rejection probability is below 2^-32 for every range
the source uses; the fuel only makes the function total and is never
exhausted in any concrete evaluation below. -/
def lemireLoop : Nat → Nat → Nat → MT → Nat × MT
  | 0, _, _, g => (0, g)
  | fuel+1, uerange, threshold, g =>
    let (raw, g') := mtNext g
    let product := raw * uerange
    if product % 2^64 < threshold then lemireLoop fuel uerange threshold g'
    else (product, g')

/-- libstdc++ `uniform_int_distribution::_S_nd<unsigned __int128>`:
downscale a full 64-bit draw to `[0, uerange)` as
`(raw * uerange) >> 64`, with Lemire's threshold rejection making the
result unbiased. -/
def lemireND (uerange : Nat) (g : MT) : Nat × MT :=
  let (raw, g') := mtNext g
  let product := raw * uerange
  let low := product % 2^64
  if low < uerange then
    let threshold := (2^64 - uerange) % uerange
    if low < threshold then
      let (p, g'') := lemireLoop 100 uerange threshold g'
      (p >>> 64, g'')
    else (product >>> 64, g')
  else (product >>> 64, g')

/-- Conversion of a `uint64_t` value to `int` as gcc implements it
(truncation to 32 bits, two's complement). -/
def int32OfUInt64 (x : Nat) : Int :=
  let r : Nat := x % 2^32
  if r < 2^31 then (r : Int) else (r : Int) - 2^32

/-- `std::uniform_int_distribution<int>(a, b)` applied to mt19937_64, as
implemented by libstdc++ on x86-64: ranges are computed in the unsigned
64-bit common type (so `a > b` wraps around rather than being rejected),
the raw draw is downscaled with Lemire's algorithm, and the final
`__ret + a` is converted back to `int`. -/
def uniformIntDist (a b : Int) (g : MT) : Int × MT :=
  let a64 : Nat := (a.emod ((2^64 : Nat) : Int)).toNat
  let b64 : Nat := (b.emod ((2^64 : Nat) : Int)).toNat
  let urange : Nat := (b64 + 2^64 - a64) % 2^64
  if urange = 2^64 - 1 then
    let (r, g') := mtNext g
    (int32OfUInt64 ((r + a64) % 2^64), g')
  else
    let (r, g') := lemireND (urange + 1) g
    (int32OfUInt64 ((r + a64) % 2^64), g')

/-- `std::generate_canonical<float, 24>` on mt19937_64 consumes exactly
one draw; the produced value in [0,1) is modelled without float
rounding (no claim observes the numeric value). -/
def uniformRealUnitDraw (g : MT) : ℚ × MT :=
  let (r, g') := mtNext g
  ((r : ℚ) / 2^64, g')

/-- `std::uniform_real_distribution<float>(-1.0f, 1.0f)` draw:
a + canonical * (b - a). -/
def vdistDraw (g : MT) : ℚ × MT :=
  let (c, g') := uniformRealUnitDraw g
  (-1 + c * 2, g')

/-- `std::round` on doubles: round half away from zero, modelled on ℚ. -/
def cppRound (q : ℚ) : Int :=
  if q < 0 then -Int.floor (-q + 1/2) else Int.floor (q + 1/2)

/-! ## CSR construction (`make_random_csr`, a2_kernels.cpp lines 49-160) -/

/-- CSR matrix as built by `make_random_csr`. `rowptr` entries are the
prefix sums (C++ `int`, unbounded here); `colidx` is `int` (it can leave
`[0,k)` on the buggy path exhibited below), `values` are the float draws
modelled as ℚ. -/
structure CSR where
  m : Nat
  k : Nat
  rowptr : List Nat
  colidx : List Int
  values : List ℚ
deriving Repr, DecidableEq

/-- The per-row draw loop of the band/blockdiag branches
(lines 73-77 / 95-99): `target` times push `bdist(rng)` onto the column
list and `vdist(rng)` onto the value list. -/
def drawRowEntries : Nat → Int → Int → MT → List Int × List ℚ × MT
  | 0, _, _, g => ([], [], g)
  | t+1, lo, hi, g =>
    let (c, g1) := uniformIntDist lo hi g
    let (v, g2) := vdistDraw g1
    let (cs, vs, g3) := drawRowEntries t lo hi g2
    (c :: cs, v :: vs, g3)

/-- `std::unique` + `erase` on an already sorted range: drop adjacent
duplicates, keeping the first element of each run. -/
def dedupAdj : List Int → List Int
  | [] => []
  | [a] => [a]
  | a :: b :: rest => if a = b then dedupAdj (b :: rest) else a :: dedupAdj (b :: rest)

/-- One row of the `pattern == "band"` branch (lines 63-80). The band
half-width `bw` is computed once outside the loop (line 62). -/
def bandRow (m k : Nat) (density : ℚ) (bw : Int) (i : Nat) (g : MT) :
    (List Int × List ℚ) × MT :=
  let center : Nat := i * k / max 1 m
  let lo : Int := max 0 ((center : Int) - bw)
  let hi : Int := min ((k : Int) - 1) ((center : Int) + bw)
  let span : Int := hi - lo + 1
  let target0 : Int := cppRound ((span : ℚ) * min 1 (density * (k : ℚ) / (span : ℚ)))
  let target : Int := max 1 (min span target0)
  let (cs, vs, g') := drawRowEntries target.toNat lo hi g
  ((dedupAdj (cs.insertionSort (· ≤ ·)), vs), g')

/-- One row of the `pattern == "blockdiag"` branch (lines 82-102). -/
def blockdiagRow (m k : Nat) (density : ℚ) (i : Nat) (g : MT) :
    (List Int × List ℚ) × MT :=
  let blocks : Nat := 8
  let bm : Nat := max 1 (m / blocks)
  let bk : Nat := max 1 (k / blocks)
  let bi : Nat := min (blocks - 1) (i / bm)
  let lo : Int := ((bi * bk : Nat) : Int)
  let hi : Int := min ((k : Int) - 1) (lo + (bk : Int) - 1)
  let span : Int := hi - lo + 1
  let target0 : Int := cppRound ((span : ℚ) * min 1 (density * (k : ℚ) / (span : ℚ)))
  let target : Int := max 1 (min span target0)
  let (cs, vs, g') := drawRowEntries target.toNat lo hi g
  ((dedupAdj (cs.insertionSort (· ≤ ·)), vs), g')

/-- Run a per-row generator for rows `i, i+1, ...` (`fuel` rows),
threading the generator state in row order. -/
def buildRowsFrom (f : Nat → MT → (List Int × List ℚ) × MT) (i : Nat) :
    Nat → MT → List (List Int × List ℚ) × MT
  | 0, g => ([], g)
  | n+1, g =>
    let (row, g1) := f i g
    let (rest, g2) := buildRowsFrom f (i+1) n g1
    (row :: rest, g2)

/-- `cols[r].push_back(c); vals[r].push_back(v)` on the per-row pair
lists of the uniform branch. -/
def pushEntry (rows : List (List (Int × ℚ))) (r : Nat) (cv : Int × ℚ) :
    List (List (Int × ℚ)) :=
  rows.set r (rows.getD r [] ++ [cv])

/-- The scatter loop of the uniform branch (lines 110-115): `nnz` times
draw a row, a column and a value and append to that row. -/
def uniformScatter : Nat → Nat → Nat → List (List (Int × ℚ)) → MT →
    List (List (Int × ℚ)) × MT
  | 0, _, _, rows, g => (rows, g)
  | t+1, m, k, rows, g =>
    let (r, g1) := uniformIntDist 0 ((m : Int) - 1) g
    let (c, g2) := uniformIntDist 0 ((k : Int) - 1) g1
    let (v, g3) := vdistDraw g2
    uniformScatter t m k (pushEntry rows r.toNat (c, v)) g3

/-- The manual dedup loop of the uniform branch (lines 128-135): walk the
sorted pairs keeping the first pair of every column run (`last` starts
at -1). -/
def uniqFirstAux (last : Int) : List (Int × ℚ) → List (Int × ℚ)
  | [] => []
  | cv :: rest =>
    if cv.1 = last then uniqFirstAux last rest
    else cv :: uniqFirstAux cv.1 rest

/-- The per-row finalization loop of the uniform branch (lines 117-138):
insert a fallback entry into empty rows, then sort the (column, value)
pairs by column and dedup keeping the first value of each column. -/
def uniformFinalize (k : Nat) : List (List (Int × ℚ)) → MT →
    List (List Int × List ℚ) × MT
  | [], g => ([], g)
  | rc :: rest, g =>
    let (rc1, gA) :=
      if rc = [] then
        let (c, gx) := uniformIntDist 0 ((k : Int) - 1) g
        let (v, gy) := vdistDraw gx
        ([(c, v)], gy)
      else (rc, g)
    let sorted := rc1.insertionSort (fun a b => a.1 ≤ b.1)
    let uniq := uniqFirstAux (-1) sorted
    let (restOut, gB) := uniformFinalize k rest gA
    ((uniq.map Prod.fst, uniq.map Prod.snd) :: restOut, gB)

/-- Final assembly (lines 141-158): `rowptr` by prefix sums over the
per-row sizes, `colidx`/`values` by concatenation. The value list of a
row is cut to the column count exactly as the copy loop does (line 153
iterates over `cols[i].size()` entries; the band/blockdiag branches
leave `vals[i]` longer when duplicates were erased from `cols[i]`). -/
def assembleCSR (m k : Nat) (rows : List (List Int × List ℚ)) : CSR :=
  { m := m
    k := k
    rowptr := List.scanl (· + ·) 0 (rows.map fun r => r.1.length)
    colidx := rows.flatMap fun r => r.1
    values := rows.flatMap fun r => r.2.take r.1.length }

/-- `make_random_csr(m, k, density, pattern, seed)`
(a2_kernels.cpp lines 49-160). The `else` branch is the uniform pattern;
any pattern string other than "band" and "blockdiag" lands there. -/
def make_random_csr (m k : Nat) (density : ℚ) (pattern : String) (seed : Nat) : CSR :=
  let g0 := mtInit seed
  if pattern = "band" then
    let bw : Int := max 1 (cppRound ((k : ℚ) * min (1/5) (max (1/100) (density * 5))))
    let (rows, _) := buildRowsFrom (bandRow m k density bw) 0 m g0
    assembleCSR m k rows
  else if pattern = "blockdiag" then
    let (rows, _) := buildRowsFrom (blockdiagRow m k density) 0 m g0
    assembleCSR m k rows
  else
    let expected : ℚ := (m : ℚ) * (k : ℚ) * density
    let nnzI : Int := max ((m : Nat) : Int) (cppRound expected)
    let (scattered, g1) := uniformScatter nnzI.toNat m k (List.replicate m []) g0
    let (rows, _) := uniformFinalize k scattered g1
    assembleCSR m k rows

/-- `csr_nnz` (line 162). -/
def csr_nnz (A : CSR) : Nat := A.values.length

/-! ## Dense buffers and the `+=` increment semantics

The GEMM/SpMM kernels only ever touch the output buffer through
`c[pos] += w` stores whose added amount is independent of `C`
(`a2_kernels.cpp` lines 180, 246, 287), plus an initial `zero_fill`
for SpMM. Each loop nest is embedded as the list of `(position,
amount)` increments it performs, in loop order, applied left to right
to the buffer (a function `Nat → ℚ` over flat row-major offsets). -/

/-- `zero_fill(x, n)` (a2_kernels.cpp lines 45-47): the first `count`
entries become 0, the rest of the address space is untouched. -/
def zero_fill (c : Nat → ℚ) (count : Nat) : Nat → ℚ :=
  fun idx => if idx < count then 0 else c idx

/-- One `c[pos] += w` store. -/
def applyInc (c : Nat → ℚ) (pw : Nat × ℚ) : Nat → ℚ :=
  fun x => if pw.1 = x then c pw.1 + pw.2 else c x

/-- Run a sequence of `+=` stores left to right. -/
def applyIncs (c : Nat → ℚ) (l : List (Nat × ℚ)) : Nat → ℚ :=
  l.foldl applyInc c

/-- Net amount a sequence of increments adds at one position
(proof-side companion of `applyIncs`). -/
def totalInc (l : List (Nat × ℚ)) (x : Nat) : ℚ :=
  (l.map fun pw => if pw.1 = x then pw.2 else 0).sum

/-- Iteration starts of a blocked C++ loop
`for (v = 0; v < n; v += step)` (for `step ≥ 1`). -/
def blockStarts (n step : Nat) : List Nat :=
  List.range' 0 ((n + step - 1) / step) step

/-! ## Dense GEMM (`gemm_tiled_scalar`, a2_kernels.cpp lines 164-187) -/

/-- The increments performed by `gemm_tiled_scalar`'s loop nest, in loop
order: `C[i*n+j] += A[i*k+t] * B[t*n+j]` over the three block loops and
the three intra-tile loops. -/
def gemmIncs (A B : Nat → ℚ) (m k n tM tK tN : Nat) : List (Nat × ℚ) :=
  (blockStarts m tM).flatMap fun ii =>
  (blockStarts k tK).flatMap fun kk =>
  (blockStarts n tN).flatMap fun jj =>
  (List.range' ii (min m (ii + tM) - ii)).flatMap fun i =>
  (List.range' kk (min k (kk + tK) - kk)).flatMap fun t =>
  (List.range' jj (min n (jj + tN) - jj)).map fun j =>
  (i * n + j, A (i * k + t) * B (t * n + j))

/-- `gemm_tiled_scalar(A, B, C, m, k, n, tileM, tileK, tileN)`:
accumulates into C (no zero fill). The `+=` stores are carried in exact
rational arithmetic — an idealization of the float32 program; see
`gemm_tiled_scalar_fp32` below for the rounding-faithful embedding of
the same loop nest. -/
def gemm_tiled_scalar (A B C : Nat → ℚ) (m k n tM tK tN : Nat) : Nat → ℚ :=
  applyIncs C (gemmIncs A B m k n tM tK tN)

/-! ## IEEE binary32 accumulation model of the GEMM kernel

The source accumulates C in `float`. Whether two identical
accumulation passes double the result is a property of that rounding
arithmetic, so the same loop nest is also embedded with each `+=`
store rounded to binary32 (round-to-nearest, ties to even). -/

/-- Floor of a rational, computed on its reduced numerator/denominator
(kept projection-level so kernel evaluation stays shallow). -/
def ratFloor (q : ℚ) : Int := q.num.ediv (q.den : Int)

/-- Round a rational to an integer, ties to even. -/
def roundEvenInt (x : ℚ) : Int :=
  let n := ratFloor x
  let f := x - mkRat n 1
  if f < 1/2 then n
  else if 1/2 < f then n + 1
  else if n % 2 = 0 then n else n + 1

/-- 2^n as a rational (via the integer power, keeping kernel reduction
shallow). -/
def pow2q (n : Nat) : ℚ := mkRat (((2^n : Nat) : Int)) 1

/-- 2^z as a rational, for an integer exponent. -/
def pow2z : Int → ℚ
  | Int.ofNat n => pow2q n
  | Int.negSucc n => 1 / pow2q (n + 1)

/-- Floor of log2 of a positive rational, by fueled normalization into
[1, 2); the fuel covers every exponent reachable from the finite
float32 range and is never exhausted in the evaluations below. -/
def log2floorAux : Nat → ℚ → Int → Int
  | 0, _, e => e
  | fuel+1, a, e =>
    if a < 1 then log2floorAux fuel (a * 2) (e - 1)
    else if 2 ≤ a then log2floorAux fuel (a / 2) (e + 1)
    else e

/-- Floor of log2 of a positive rational. -/
def log2floor (a : ℚ) : Int := log2floorAux 5000 a 0

/-- Round a rational to the nearest IEEE-754 binary32 value: 24-bit
significand granularity 2^(e-23), round-to-nearest with ties to even,
gradual underflow through the 2^-149 granularity floor. (Finite range
only; every evaluation below stays far inside it.) -/
def fp32round (q : ℚ) : ℚ :=
  if q = 0 then 0
  else
    let aq : ℚ := if q < 0 then -q else q
    let e : Int := log2floor aq - 23
    let g : Int := if e < -149 then -149 else e
    mkRat (roundEvenInt (q / pow2z g)) 1 * pow2z g

/-- float32 addition: round the exact sum. -/
def fp32add (x y : ℚ) : ℚ := fp32round (x + y)

/-- float32 multiplication: round the exact product. -/
def fp32mul (x y : ℚ) : ℚ := fp32round (x * y)

/-- One `c[pos] += w` store in float32. -/
def applyIncFp32 (c : Nat → ℚ) (pw : Nat × ℚ) : Nat → ℚ :=
  fun x => if pw.1 = x then fp32add (c pw.1) pw.2 else c x

/-- Run float32 `+=` stores left to right. -/
def applyIncsFp32 (c : Nat → ℚ) (l : List (Nat × ℚ)) : Nat → ℚ :=
  l.foldl applyIncFp32 c

/-- The increments of `gemm_tiled_scalar`'s loop nest with the product
`A[i*k+t] * B[t*n+j]` rounded to float32. (In the counterexample below
every product is exactly representable, so a compiler contracting the
multiply-add into an fma produces identical results there.) -/
def gemmIncsFp32 (A B : Nat → ℚ) (m k n tM tK tN : Nat) : List (Nat × ℚ) :=
  (blockStarts m tM).flatMap fun ii =>
  (blockStarts k tK).flatMap fun kk =>
  (blockStarts n tN).flatMap fun jj =>
  (List.range' ii (min m (ii + tM) - ii)).flatMap fun i =>
  (List.range' kk (min k (kk + tK) - kk)).flatMap fun t =>
  (List.range' jj (min n (jj + tN) - jj)).map fun j =>
  (i * n + j, fp32mul (A (i * k + t)) (B (t * n + j)))

/-- `gemm_tiled_scalar` with faithful float32 accumulation. -/
def gemm_tiled_scalar_fp32 (A B C : Nat → ℚ) (m k n tM tK tN : Nat) :
    Nat → ℚ :=
  applyIncsFp32 C (gemmIncsFp32 A B m k n tM tK tN)

/-! ## SpMM (`spmm_csr_scalar` lines 224-251, `spmm_csr_avx2` lines
254-292) -/

/-- Layout tag of the dense operand B. -/
inductive LayoutB
  | RowMajor
  | ColMajor
deriving DecidableEq, Repr

/-- The `getB` closure of `spmm_csr_scalar` (lines 229-232):
row-major `B[col * n + j]`, column-major `B[j * A.k + col]`.
B is a total function on `Int` addresses because the builder bug
exhibited below can hand the kernel negative column indices. -/
def getB (A : CSR) (B : Int → ℚ) (n : Nat) (layout : LayoutB)
    (col : Int) (j : Nat) : ℚ :=
  if layout = LayoutB.RowMajor then B (col * (n : Int) + (j : Int))
  else B ((j : Int) * (A.k : Int) + col)

/-- Increments of row `i` of `spmm_csr_scalar` (lines 235-250): for each
column block and each stored entry `p` of the row, add
`values[p] * B[colidx[p], j]` into `C[i*n+j]` over the block. -/
def spmmRowIncs (A : CSR) (B : Int → ℚ) (n jb : Nat) (layout : LayoutB)
    (i : Nat) : List (Nat × ℚ) :=
  let p0 := A.rowptr.getD i 0
  let p1 := A.rowptr.getD (i+1) 0
  (blockStarts n jb).flatMap fun j0 =>
  (List.range' p0 (p1 - p0)).flatMap fun p =>
  (List.range' j0 (min n (j0 + jb) - j0)).map fun j =>
  (i * n + j, A.values.getD p 0 * getB A B n layout (A.colidx.getD p 0) j)

/-- All increments of `spmm_csr_scalar`, rows in order. -/
def spmmIncs (A : CSR) (B : Int → ℚ) (n jb : Nat) (layout : LayoutB) :
    List (Nat × ℚ) :=
  (List.range A.m).flatMap (spmmRowIncs A B n jb layout)

/-- `spmm_csr_scalar(A, B, C, n, jblock, layoutB)`: zero-fill the m×n
output extent, then accumulate. -/
def spmm_csr_scalar (A : CSR) (B : Int → ℚ) (C : Nat → ℚ) (n jb : Nat)
    (layout : LayoutB) : Nat → ℚ :=
  applyIncs (zero_fill C (A.m * n)) (spmmIncs A B n jb layout)

/-- Increments of row `i` of the row-major path of `spmm_csr_avx2`
(lines 265-291): the 8-lane vector loop covers
`[j0, j0 + ((j1-j0)/8)*8)` lane by lane, the scalar remainder loop the
tail. -/
def spmmRowIncsAvx2 (A : CSR) (B : Int → ℚ) (n jb : Nat) (i : Nat) :
    List (Nat × ℚ) :=
  let p0 := A.rowptr.getD i 0
  let p1 := A.rowptr.getD (i+1) 0
  (blockStarts n jb).flatMap fun j0 =>
  let j1 := min n (j0 + jb)
  let jve := j0 + ((j1 - j0) / 8) * 8
  (List.range' p0 (p1 - p0)).flatMap fun p =>
  let col := A.colidx.getD p 0
  let a := A.values.getD p 0
  (((List.range ((j1 - j0) / 8)).flatMap fun v =>
    (List.range 8).map fun lane =>
      let j := j0 + 8 * v + lane
      (i * n + j, a * B (col * (n : Int) + (j : Int)))) ++
   ((List.range' jve (j1 - jve)).map fun j =>
      (i * n + j, a * B (col * (n : Int) + (j : Int)))))

/-- All increments of the row-major path of `spmm_csr_avx2`. -/
def spmmIncsAvx2 (A : CSR) (B : Int → ℚ) (n jb : Nat) : List (Nat × ℚ) :=
  (List.range A.m).flatMap (spmmRowIncsAvx2 A B n jb)

/-- `spmm_csr_avx2(A, B, C, n, jblock, layoutB)` (lines 254-292): for
non-row-major B it falls back to `spmm_csr_scalar` (lines 256-259),
otherwise zero-fill then the vectorized accumulate. -/
def spmm_csr_avx2 (A : CSR) (B : Int → ℚ) (C : Nat → ℚ) (n jb : Nat)
    (layout : LayoutB) : Nat → ℚ :=
  if layout ≠ LayoutB.RowMajor then spmm_csr_scalar A B C n jb layout
  else applyIncs (zero_fill C (A.m * n)) (spmmIncsAvx2 A B n jb)

/-! ## Stream triad (`stream_triad_bandwidth_gbps`, lines 295-322) -/

/-- One pass of the parallel triad loop (lines 310-312):
`a[i] = b[i] + s * c[i]` for every `i < N`. -/
def triadPass (N : Nat) (s : ℚ) (b c a : Nat → ℚ) : Nat → ℚ :=
  fun i => if i < N then b i + s * c i else a i

/-- The `iters` repetitions of the triad loop (lines 308-313); the
timing and bandwidth arithmetic around it is real-time behaviour and
not modelled. -/
def stream_triad_loop (N iters : Nat) (s : ℚ) (a b c : Nat → ℚ) : Nat → ℚ :=
  (List.range iters).foldl (fun acc _ => triadPass N s b c acc) a

/-! ## Benchmark trial loop and statistics
(a2_benchmark.cpp lines 108-120 and 146-157, a2_utils.cpp lines 17-32) -/

/-- The timed repetition loop of the benchmark driver: per repetition
`r` it reads the clock, invokes the kernel once (abstracted to an
invocation counter, since only the number of invocations and the
recorded samples are at issue), reads the clock again and appends the
elapsed time. Returns (call_times, kernel invocation count). `clock`
is the stream of `now_seconds()` readings, reading `2*r` and `2*r+1`
taken in repetition `r`. -/
def runTrials (reps : Nat) (clock : Nat → ℚ) : List ℚ × Nat :=
  (List.range reps).foldl
    (fun acc r =>
      let t0 := clock (2 * r)
      let t1 := clock (2 * r + 1)
      (acc.1 ++ [t1 - t0], acc.2 + 1))
    ([], 0)

/-- The `pick` lambda of `percentile_us` (a2_utils.cpp lines 21-28) on a
sorted sample list: index `q * (N-1)`, truncated; linear interpolation
with the clamped neighbour; seconds scaled to microseconds. -/
def percentilePick (v : List ℚ) (q : ℚ) : ℚ :=
  let idx : ℚ := q * ((v.length : ℚ) - 1)
  let i : Nat := (Int.floor idx).toNat
  let frac : ℚ := idx - (i : ℚ)
  let a := v.getD i 0
  let b := v.getD (min (i + 1) (v.length - 1)) 0
  (a + frac * (b - a)) * 1000000

/-- `percentile_us(samples_sec, p50, p95, p99)` (a2_utils.cpp lines
17-32): empty input sets all three outputs to 0, otherwise sort and
pick at q = 0.50, 0.95, 0.99. -/
def percentile_us (samples : List ℚ) : ℚ × ℚ × ℚ :=
  if samples.isEmpty then (0, 0, 0)
  else
    let v := samples.insertionSort (· ≤ ·)
    (percentilePick v (1/2), percentilePick v (19/20), percentilePick v (99/100))

/-- The reported "seconds" of the benchmark driver (a2_benchmark.cpp
lines 159-161 and 122-124): sort the call times and take the element at
index `size/2`. -/
def reportedSeconds (callTimes : List ℚ) : ℚ :=
  let tmp := callTimes.insertionSort (· ≤ ·)
  tmp.getD (tmp.length / 2) 0

/-! ## Spec-side definitions (for refinement comparisons only)

These two follow the wording of the specification, not the source, and
exist to be compared against the source-derived definitions above. -/

/-- The statistical median the spec's word "median" denotes: middle
element of the sorted samples for odd size, mean of the two middle
elements for even size. -/
def specMedian (l : List ℚ) : ℚ :=
  let v := l.insertionSort (· ≤ ·)
  if l.length % 2 = 1 then v.getD (l.length / 2) 0
  else (v.getD (l.length / 2 - 1) 0 + v.getD (l.length / 2) 0) / 2

/-- The spec's percentile: linear interpolation between the two sorted
sample ranks bracketing the fractional rank `q * (N-1)` (reported in
microseconds like the metrics record). -/
def specPercentile (l : List ℚ) (q : ℚ) : ℚ :=
  let v := l.insertionSort (· ≤ ·)
  let r : ℚ := q * ((l.length : ℚ) - 1)
  let lo : Nat := (Int.floor r).toNat
  let hi : Nat := (Int.ceil r).toNat
  (v.getD lo 0 + (r - (lo : ℚ)) * (v.getD hi 0 - v.getD lo 0)) * 1000000

/-! ## Lemmas about the increment semantics -/

theorem totalInc_nil (x : Nat) : totalInc [] x = 0 := rfl

theorem totalInc_cons (pw : Nat × ℚ) (l : List (Nat × ℚ)) (x : Nat) :
    totalInc (pw :: l) x = (if pw.1 = x then pw.2 else 0) + totalInc l x := by
  simp [totalInc]

theorem totalInc_append (l1 l2 : List (Nat × ℚ)) (x : Nat) :
    totalInc (l1 ++ l2) x = totalInc l1 x + totalInc l2 x := by
  simp [totalInc]

theorem totalInc_flatMap {α : Type} (as : List α) (f : α → List (Nat × ℚ))
    (x : Nat) :
    totalInc (as.flatMap f) x = (as.map fun a => totalInc (f a) x).sum := by
  induction as with
  | nil => rfl
  | cons a as ih => simp only [List.flatMap_cons, totalInc_append, ih,
      List.map_cons, List.sum_cons]

theorem totalInc_eq_zero (l : List (Nat × ℚ)) (x : Nat)
    (h : ∀ pw ∈ l, pw.1 ≠ x) : totalInc l x = 0 := by
  induction l with
  | nil => rfl
  | cons pw l ih =>
    rw [totalInc_cons, if_neg (h pw (List.mem_cons_self pw l)),
      ih fun q hq => h q (List.mem_cons_of_mem _ hq), add_zero]

theorem applyIncs_apply (l : List (Nat × ℚ)) (c : Nat → ℚ) (x : Nat) :
    applyIncs c l x = c x + totalInc l x := by
  induction l generalizing c with
  | nil => simp [applyIncs, totalInc]
  | cons pw l ih =>
    show applyIncs (applyInc c pw) l x = _
    rw [ih, totalInc_cons]
    unfold applyInc
    by_cases h : pw.1 = x
    · rw [if_pos h, if_pos h, h]
      ring
    · rw [if_neg h, if_neg h]
      ring

/-- Flat row-major offsets of distinct in-extent cells are distinct. -/
theorem rowcol_inj {i i' j j' n : Nat} (hj : j < n) (hj' : j' < n)
    (h : i * n + j = i' * n + j') : i = i' ∧ j = j' := by
  have hn : 0 < n := Nat.lt_of_le_of_lt (Nat.zero_le j) hj
  have e1 : (i * n + j) / n = i := by
    rw [Nat.mul_comm, Nat.mul_add_div hn, Nat.div_eq_of_lt hj, Nat.add_zero]
  have e2 : (i' * n + j') / n = i' := by
    rw [Nat.mul_comm, Nat.mul_add_div hn, Nat.div_eq_of_lt hj', Nat.add_zero]
  have hii : i = i' := by rw [← e1, ← e2, h]
  refine ⟨hii, ?_⟩
  subst hii
  omega

/-- In-extent cells sit below the zero-filled m*n extent. -/
theorem cell_lt_extent {i j m n : Nat} (hi : i < m) (hj : j < n) :
    i * n + j < m * n := by
  have h1 : i * n + j < (i + 1) * n := by
    rw [Nat.succ_mul]
    omega
  have h2 : (i + 1) * n ≤ m * n := Nat.mul_le_mul_right n hi
  omega

/-- Summing a function over `List.range M` where all entries except one
vanish. -/
theorem sum_map_range_eq_single (f : Nat → ℚ) :
    ∀ M i : Nat, i < M → (∀ i', i' < M → i' ≠ i → f i' = 0) →
    ((List.range M).map f).sum = f i := by
  intro M
  induction M with
  | zero => intro i hi _; omega
  | succ M ih =>
    intro i hi h0
    rw [List.range_succ, List.map_append, List.sum_append]
    by_cases hM : i = M
    · have hz : ((List.range M).map f).sum = 0 := by
        apply List.sum_eq_zero
        intro x hx
        rw [List.mem_map] at hx
        obtain ⟨i', hi', rfl⟩ := hx
        rw [List.mem_range] at hi'
        exact h0 i' (by omega) (by omega)
      rw [hz, hM]
      simp
    · have hiM : i < M := by omega
      rw [ih i hiM fun i' h1 h2 => h0 i' (by omega) h2]
      have hz : f M = 0 := h0 M (by omega) (by omega)
      simp [hz]

/-! ## Position bounds of the kernels' increments -/

theorem spmmRowIncs_pos (A : CSR) (B : Int → ℚ) (n jb : Nat)
    (layout : LayoutB) (i : Nat) (pw : Nat × ℚ)
    (h : pw ∈ spmmRowIncs A B n jb layout i) :
    ∃ j, j < n ∧ pw.1 = i * n + j := by
  simp only [spmmRowIncs, List.mem_flatMap, List.mem_map,
    List.mem_range'_1] at h
  obtain ⟨j0, hj0, p, hp, j, hj, rfl⟩ := h
  refine ⟨j, ?_, rfl⟩
  have h1 := Nat.min_le_left n (j0 + jb)
  omega

theorem spmmRowIncsAvx2_pos (A : CSR) (B : Int → ℚ) (n jb : Nat) (i : Nat)
    (pw : Nat × ℚ) (h : pw ∈ spmmRowIncsAvx2 A B n jb i) :
    ∃ j, j < n ∧ pw.1 = i * n + j := by
  simp only [spmmRowIncsAvx2, List.mem_flatMap, List.mem_append,
    List.mem_map, List.mem_range'_1, List.mem_range] at h
  obtain ⟨j0, hj0, p, hp, h⟩ := h
  have h1 := Nat.min_le_left n (j0 + jb)
  have h2 := Nat.div_mul_le_self (min n (j0 + jb) - j0) 8
  rcases h with ⟨v, hv, lane, hlane, rfl⟩ | ⟨j, hj, rfl⟩
  · exact ⟨j0 + 8 * v + lane, by omega, rfl⟩
  · exact ⟨j, by omega, rfl⟩

theorem gemmIncs_pos (A B : Nat → ℚ) (m k n tM tK tN : Nat) (pw : Nat × ℚ)
    (h : pw ∈ gemmIncs A B m k n tM tK tN) :
    ∃ i j, i < m ∧ j < n ∧ pw.1 = i * n + j := by
  simp only [gemmIncs, List.mem_flatMap, List.mem_map,
    List.mem_range'_1] at h
  obtain ⟨ii, hii, kk, hkk, jj, hjj, i, hi, t, ht, j, hj, rfl⟩ := h
  refine ⟨i, j, ?_, ?_, rfl⟩
  · have := Nat.min_le_left m (ii + tM)
    omega
  · have := Nat.min_le_left n (jj + tN)
    omega

/-- A row whose rowptr range is empty contributes no increments
(scalar kernel). -/
theorem spmmRowIncs_empty (A : CSR) (B : Int → ℚ) (n jb : Nat)
    (layout : LayoutB) (i : Nat)
    (h : A.rowptr.getD i 0 = A.rowptr.getD (i + 1) 0) :
    spmmRowIncs A B n jb layout i = [] := by
  simp only [List.getD_eq_getElem?_getD] at h
  simp only [spmmRowIncs, List.getD_eq_getElem?_getD]
  simp only [List.flatMap_eq_nil_iff, List.mem_range'_1]
  intro x hx p hp
  exact absurd hp.2 (by omega)

/-- A row whose rowptr range is empty contributes no increments
(vector kernel). -/
theorem spmmRowIncsAvx2_empty (A : CSR) (B : Int → ℚ) (n jb : Nat)
    (i : Nat)
    (h : A.rowptr.getD i 0 = A.rowptr.getD (i + 1) 0) :
    spmmRowIncsAvx2 A B n jb i = [] := by
  simp only [List.getD_eq_getElem?_getD] at h
  simp only [spmmRowIncsAvx2, List.getD_eq_getElem?_getD]
  simp only [List.flatMap_eq_nil_iff, List.mem_range'_1]
  intro x hx p hp
  exact absurd hp.2 (by omega)

/-- At an in-extent cell, only the cell's own row contributes to the
scalar SpMM output. -/
theorem totalInc_spmmIncs (A : CSR) (B : Int → ℚ) (n jb : Nat)
    (layout : LayoutB) (i j : Nat) (hi : i < A.m) (hj : j < n) :
    totalInc (spmmIncs A B n jb layout) (i * n + j) =
      totalInc (spmmRowIncs A B n jb layout i) (i * n + j) := by
  unfold spmmIncs
  rw [totalInc_flatMap]
  apply sum_map_range_eq_single _ A.m i hi
  intro i' _ hne
  apply totalInc_eq_zero
  intro pw hpw
  obtain ⟨j', hj', hpw1⟩ := spmmRowIncs_pos A B n jb layout i' pw hpw
  rw [hpw1]
  intro hcontra
  exact hne (rowcol_inj hj' hj hcontra).1

/-- At an in-extent cell, only the cell's own row contributes to the
vectorized SpMM output. -/
theorem totalInc_spmmIncsAvx2 (A : CSR) (B : Int → ℚ) (n jb : Nat)
    (i j : Nat) (hi : i < A.m) (hj : j < n) :
    totalInc (spmmIncsAvx2 A B n jb) (i * n + j) =
      totalInc (spmmRowIncsAvx2 A B n jb i) (i * n + j) := by
  unfold spmmIncsAvx2
  rw [totalInc_flatMap]
  apply sum_map_range_eq_single _ A.m i hi
  intro i' _ hne
  apply totalInc_eq_zero
  intro pw hpw
  obtain ⟨j', hj', hpw1⟩ := spmmRowIncsAvx2_pos A B n jb i' pw hpw
  rw [hpw1]
  intro hcontra
  exact hne (rowcol_inj hj' hj hcontra).1

/-- The unrecognized-pattern fallback of `make_random_csr`: any pattern
string other than "band" and "blockdiag" takes the final `else` branch,
which never consults the pattern string, so the result coincides with
the "uniform" build. -/
theorem make_random_csr_default (m k : Nat) (d : ℚ) (p : String) (s : Nat)
    (h1 : p ≠ "band") (h2 : p ≠ "blockdiag") :
    make_random_csr m k d p s = make_random_csr m k d "uniform" s := by
  unfold make_random_csr
  rw [if_neg h1, if_neg h2, if_neg (by decide : ¬("uniform" = "band")),
    if_neg (by decide : ¬("uniform" = "blockdiag"))]

/-! ## Claim theorems -/

/-- C4 (amended): the trial loop of the benchmark driver executes the
kernel exactly `count` times, and every invocation's elapsed time (the
difference of the two clock readings bracketing it) is recorded in the
timing samples; there is no extra untimed warm-up invocation. -/
theorem runTrials_executes_exactly (reps : Nat) (clock : Nat → ℚ) :
    (runTrials reps clock).2 = reps ∧
    (runTrials reps clock).1 =
      (List.range reps).map fun r => clock (2 * r + 1) - clock (2 * r) := by
  induction reps with
  | zero => exact ⟨rfl, rfl⟩
  | succ R ih =>
    unfold runTrials at ih ⊢
    rw [List.range_succ, List.foldl_append, List.foldl_cons, List.foldl_nil,
      List.map_append]
    refine ⟨by rw [ih.1], ?_⟩
    rw [ih.2]
    simp

/-- C4 (counterexample): with the spmm repetition count 20 and an
arbitrary concrete clock, the loop performs 20 kernel invocations, not
20 + 1, and the first invocation's elapsed time (clock reading 1 minus
clock reading 0) is recorded as the first sample rather than excluded. -/
theorem trial_loop_has_no_warmup :
    (runTrials 20 (fun t => (t : ℚ))).2 = 20 ∧
    (runTrials 20 (fun t => (t : ℚ))).2 ≠ 20 + 1 ∧
    (runTrials 20 (fun t => (t : ℚ))).1.length = 20 ∧
    (runTrials 20 (fun t => (t : ℚ))).1.getD 0 0 =
      ((1 : Nat) : ℚ) - ((0 : Nat) : ℚ) := by
  refine ⟨?_, ?_, ?_, ?_⟩ <;> with_unfolding_all decide

/-- C5: both SpMM kernels fully overwrite the m×n output extent — the
result at every in-extent cell is independent of the output buffer's
prior contents — and a row with an empty rowptr range leaves its whole
output row zero. -/
theorem spmm_overwrites_and_zero_rows
    (A : CSR) (B : Int → ℚ) (c1 c2 : Nat → ℚ) (n jb : Nat)
    (layout : LayoutB) (hn : 1 ≤ n) (hjb : 1 ≤ jb)
    (i j : Nat) (hi : i < A.m) (hj : j < n) :
    (spmm_csr_scalar A B c1 n jb layout (i * n + j) =
        spmm_csr_scalar A B c2 n jb layout (i * n + j) ∧
      spmm_csr_avx2 A B c1 n jb layout (i * n + j) =
        spmm_csr_avx2 A B c2 n jb layout (i * n + j)) ∧
    (A.rowptr.getD i 0 = A.rowptr.getD (i + 1) 0 →
      spmm_csr_scalar A B c1 n jb layout (i * n + j) = 0 ∧
      spmm_csr_avx2 A B c1 n jb layout (i * n + j) = 0) := by
  have hx : i * n + j < A.m * n := cell_lt_extent hi hj
  have hsc : ∀ c : Nat → ℚ, spmm_csr_scalar A B c n jb layout (i * n + j) =
      totalInc (spmmRowIncs A B n jb layout i) (i * n + j) := by
    intro c
    unfold spmm_csr_scalar
    rw [applyIncs_apply, totalInc_spmmIncs A B n jb layout i j hi hj]
    simp [zero_fill, hx]
  have hav : ∀ c : Nat → ℚ, spmm_csr_avx2 A B c n jb layout (i * n + j) =
      (if layout = LayoutB.RowMajor
        then totalInc (spmmRowIncsAvx2 A B n jb i) (i * n + j)
        else totalInc (spmmRowIncs A B n jb layout i) (i * n + j)) := by
    intro c
    unfold spmm_csr_avx2
    by_cases hl : layout = LayoutB.RowMajor
    · rw [if_neg (by simp [hl]), if_pos hl, applyIncs_apply,
        totalInc_spmmIncsAvx2 A B n jb i j hi hj]
      simp [zero_fill, hx]
    · rw [if_pos hl, if_neg hl]
      exact hsc c
  refine ⟨⟨by rw [hsc c1, hsc c2], by rw [hav c1, hav c2]⟩, ?_⟩
  intro hrow
  have hz1 : totalInc (spmmRowIncs A B n jb layout i) (i * n + j) = 0 := by
    rw [spmmRowIncs_empty A B n jb layout i hrow]
    rfl
  have hz2 : totalInc (spmmRowIncsAvx2 A B n jb i) (i * n + j) = 0 := by
    rw [spmmRowIncsAvx2_empty A B n jb i hrow]
    rfl
  refine ⟨by rw [hsc c1, hz1], ?_⟩
  rw [hav c1]
  by_cases hl : layout = LayoutB.RowMajor
  · rw [if_pos hl]
    exact hz2
  · rw [if_neg hl]
    exact hz1

/-- C5 (witness): a concrete 1×1 CSR with one entry, two different prior
output buffers, evaluated at cell (0,0). -/
theorem spmm_overwrites_and_zero_rows_witness :
    (1 ≤ 1) ∧ (0 < 1) ∧
    (spmm_csr_scalar ⟨1, 1, [0, 1], [0], [1]⟩ (fun _ => 1) (fun _ => 3) 1 1
          LayoutB.RowMajor (0 * 1 + 0) =
        spmm_csr_scalar ⟨1, 1, [0, 1], [0], [1]⟩ (fun _ => 1) (fun _ => 7) 1 1
          LayoutB.RowMajor (0 * 1 + 0) ∧
      spmm_csr_avx2 ⟨1, 1, [0, 1], [0], [1]⟩ (fun _ => 1) (fun _ => 3) 1 1
          LayoutB.RowMajor (0 * 1 + 0) =
        spmm_csr_avx2 ⟨1, 1, [0, 1], [0], [1]⟩ (fun _ => 1) (fun _ => 7) 1 1
          LayoutB.RowMajor (0 * 1 + 0)) ∧
    ((CSR.mk 1 1 [0, 1] [0] [1]).rowptr.getD 0 0 =
        (CSR.mk 1 1 [0, 1] [0] [1]).rowptr.getD (0 + 1) 0 →
      spmm_csr_scalar ⟨1, 1, [0, 1], [0], [1]⟩ (fun _ => 1) (fun _ => 3) 1 1
          LayoutB.RowMajor (0 * 1 + 0) = 0 ∧
      spmm_csr_avx2 ⟨1, 1, [0, 1], [0], [1]⟩ (fun _ => 1) (fun _ => 3) 1 1
          LayoutB.RowMajor (0 * 1 + 0) = 0) :=
  ⟨by decide, by decide,
    spmm_overwrites_and_zero_rows ⟨1, 1, [0, 1], [0], [1]⟩ (fun _ => 1)
      (fun _ => 3) (fun _ => 7) 1 1 LayoutB.RowMajor (by decide) (by decide)
      0 0 (by decide) (by decide)⟩

/-- C6: for column-major B the vectorized SpMM kernel is the scalar
kernel — the fallback branch at the top of `spmm_csr_avx2`. -/
theorem spmm_avx2_colmajor_falls_back (A : CSR) (B : Int → ℚ)
    (C : Nat → ℚ) (n jb : Nat) :
    spmm_csr_avx2 A B C n jb LayoutB.ColMajor =
      spmm_csr_scalar A B C n jb LayoutB.ColMajor := by
  unfold spmm_csr_avx2
  rw [if_pos (by decide)]

/-- C7 (amended): after `zero_fill`, accumulating the same tiled GEMM
call twice without re-zeroing doubles every in-extent element of C
exactly — when the `+=` accumulation is carried in exact (rational)
arithmetic. Under the program's float32 rounding the doubling is only
approximate and can fail exactly (see the counterexample). -/
theorem gemm_accumulates_twice (A B : Nat → ℚ) (m k n tM tK tN : Nat)
    (c0 : Nat → ℚ) (htM : 1 ≤ tM) (htK : 1 ≤ tK) (htN : 1 ≤ tN)
    (i j : Nat) (hi : i < m) (hj : j < n) :
    gemm_tiled_scalar A B
        (gemm_tiled_scalar A B (zero_fill c0 (m * n)) m k n tM tK tN)
        m k n tM tK tN (i * n + j) =
      2 * gemm_tiled_scalar A B (zero_fill c0 (m * n)) m k n tM tK tN
        (i * n + j) := by
  have hx : i * n + j < m * n := cell_lt_extent hi hj
  unfold gemm_tiled_scalar
  rw [applyIncs_apply, applyIncs_apply]
  simp only [zero_fill, if_pos hx]
  ring

/-- C7 (witness): 1×1×1 GEMM with unit tiles on concrete data. -/
theorem gemm_accumulates_twice_witness :
    (1 ≤ 1) ∧ (0 < 1) ∧
    gemm_tiled_scalar (fun _ => 1) (fun _ => 1)
        (gemm_tiled_scalar (fun _ => 1) (fun _ => 1)
          (zero_fill (fun _ => 5) (1 * 1)) 1 1 1 1 1 1)
        1 1 1 1 1 1 (0 * 1 + 0) =
      2 * gemm_tiled_scalar (fun _ => 1) (fun _ => 1)
        (zero_fill (fun _ => 5) (1 * 1)) 1 1 1 1 1 1 (0 * 1 + 0) :=
  ⟨by decide, by decide,
    gemm_accumulates_twice (fun _ => 1) (fun _ => 1) 1 1 1 1 1 1
      (fun _ => 5) (by decide) (by decide) (by decide) 0 0 (by decide)
      (by decide)⟩

set_option maxRecDepth 100000 in
/-- C7 (counterexample): under the program's float32 accumulation the
doubling is not exact. With m = 1, k = 2, n = 1, unit tiles,
A = [1, 1] and B = [1, -(1 - 2^-24)], a single call after `zero_fill`
leaves C[0] = 2^-24 (num 1, den 2^24); the second call first adds
1.0 — and 1 + 2^-24 rounds back down to 1.0 by ties-to-even — then
adds -(1 - 2^-24), ending at 2^-24 again, not 2 * 2^-24. The num/den
conjuncts pin both call results to exactly 2^-24, and the final
conjunct is the negation of the claimed exact doubling. -/
theorem gemm_fp32_twice_not_double :
    ((gemm_tiled_scalar_fp32 (fun _ => 1)
        (fun idx => if idx = 0 then 1 else -(1 - pow2z (-24)))
        (zero_fill (fun _ => 0) (1 * 1)) 1 2 1 1 1 1 (0 * 1 + 0)).num = 1 ∧
      (gemm_tiled_scalar_fp32 (fun _ => 1)
        (fun idx => if idx = 0 then 1 else -(1 - pow2z (-24)))
        (zero_fill (fun _ => 0) (1 * 1)) 1 2 1 1 1 1
        (0 * 1 + 0)).den = 16777216) ∧
    ((gemm_tiled_scalar_fp32 (fun _ => 1)
        (fun idx => if idx = 0 then 1 else -(1 - pow2z (-24)))
        (gemm_tiled_scalar_fp32 (fun _ => 1)
          (fun idx => if idx = 0 then 1 else -(1 - pow2z (-24)))
          (zero_fill (fun _ => 0) (1 * 1)) 1 2 1 1 1 1)
        1 2 1 1 1 1 (0 * 1 + 0)).num = 1 ∧
      (gemm_tiled_scalar_fp32 (fun _ => 1)
        (fun idx => if idx = 0 then 1 else -(1 - pow2z (-24)))
        (gemm_tiled_scalar_fp32 (fun _ => 1)
          (fun idx => if idx = 0 then 1 else -(1 - pow2z (-24)))
          (zero_fill (fun _ => 0) (1 * 1)) 1 2 1 1 1 1)
        1 2 1 1 1 1 (0 * 1 + 0)).den = 16777216) ∧
    gemm_tiled_scalar_fp32 (fun _ => 1)
        (fun idx => if idx = 0 then 1 else -(1 - pow2z (-24)))
        (gemm_tiled_scalar_fp32 (fun _ => 1)
          (fun idx => if idx = 0 then 1 else -(1 - pow2z (-24)))
          (zero_fill (fun _ => 0) (1 * 1)) 1 2 1 1 1 1)
        1 2 1 1 1 1 (0 * 1 + 0) ≠
      2 * gemm_tiled_scalar_fp32 (fun _ => 1)
        (fun idx => if idx = 0 then 1 else -(1 - pow2z (-24)))
        (zero_fill (fun _ => 0) (1 * 1)) 1 2 1 1 1 1 (0 * 1 + 0) := by
  refine ⟨⟨?_, ?_⟩, ⟨?_, ?_⟩, ?_⟩
  · with_unfolding_all decide
  · with_unfolding_all decide
  · with_unfolding_all decide
  · with_unfolding_all decide
  · have hden2 : (2 * gemm_tiled_scalar_fp32 (fun _ => 1)
        (fun idx => if idx = 0 then 1 else -(1 - pow2z (-24)))
        (zero_fill (fun _ => 0) (1 * 1)) 1 2 1 1 1 1 (0 * 1 + 0)).den
          = 8388608 := by with_unfolding_all decide
    have hden1 : (gemm_tiled_scalar_fp32 (fun _ => 1)
        (fun idx => if idx = 0 then 1 else -(1 - pow2z (-24)))
        (gemm_tiled_scalar_fp32 (fun _ => 1)
          (fun idx => if idx = 0 then 1 else -(1 - pow2z (-24)))
          (zero_fill (fun _ => 0) (1 * 1)) 1 2 1 1 1 1)
        1 2 1 1 1 1 (0 * 1 + 0)).den = 16777216 := by
      with_unfolding_all decide
    intro heq
    rw [heq, hden2] at hden1
    exact absurd hden1 (by decide)

/-- C9: one pass of the stream-triad loop with N = 1024 makes
`a[i] = b[i] + s * c[i]` hold exactly at every index below N, for every
input buffer contents and scalar. -/
theorem stream_triad_exact (a b c : Nat → ℚ) (s : ℚ) (i : Nat)
    (hi : i < 1024) :
    stream_triad_loop 1024 1 s a b c i = b i + s * c i := by
  unfold stream_triad_loop
  rw [show List.range 1 = [0] from rfl, List.foldl_cons, List.foldl_nil]
  unfold triadPass
  rw [if_pos hi]

/-- C9 (witness): concrete buffers and scalar at index 0. -/
theorem stream_triad_exact_witness :
    (0 < 1024) ∧
    stream_triad_loop 1024 1 2 (fun _ => 9) (fun _ => 4) (fun _ => 5) 0 =
      (fun _ => (4 : ℚ)) 0 + 2 * (fun _ => (5 : ℚ)) 0 :=
  ⟨by decide, stream_triad_exact (fun _ => 9) (fun _ => 4) (fun _ => 5) 2 0
    (by decide)⟩

/-- C10: `percentile_us` on an empty sample list returns (0, 0, 0). -/
theorem percentile_us_empty : percentile_us [] = (0, 0, 0) := rfl

/-- The source's `pick` agrees with the spec's floor/ceil interpolation
for every quantile in [0, 1): when the fractional rank is integral the
interpolation weight vanishes on both sides, otherwise the clamped
neighbour `min (i+1) (N-1)` is exactly the ceiling rank. -/
theorem percentilePick_eq_spec (l : List ℚ) (q : ℚ) (hl : l ≠ [])
    (h0 : 0 ≤ q) (h1 : q < 1) :
    percentilePick (l.insertionSort (· ≤ ·)) q = specPercentile l q := by
  have hlen : (l.insertionSort (· ≤ ·)).length = l.length :=
    List.length_insertionSort (· ≤ ·) l
  have hN : 1 ≤ l.length := List.length_pos.mpr hl
  simp only [percentilePick, specPercentile, hlen]
  set r : ℚ := q * ((l.length : ℚ) - 1) with hr
  have hr0 : 0 ≤ r := by
    apply mul_nonneg h0
    have h1N : (1 : ℚ) ≤ (l.length : ℚ) := by exact_mod_cast hN
    linarith
  have hfl0 : 0 ≤ ⌊r⌋ := Int.floor_nonneg.mpr hr0
  have hcast : ((⌊r⌋.toNat : ℚ)) = ((⌊r⌋ : ℤ) : ℚ) := by
    exact_mod_cast congrArg (fun z : ℤ => (z : ℚ)) (Int.toNat_of_nonneg hfl0)
  by_cases hint : ((⌊r⌋ : ℤ) : ℚ) = r
  · have hceil : ⌈r⌉ = ⌊r⌋ := by
      conv_lhs => rw [← hint]
      rw [Int.ceil_intCast]
    have hfrac : r - ((⌊r⌋.toNat : ℚ)) = 0 := by
      rw [hcast, hint, sub_self]
    rw [hceil, hfrac]
    ring
  · have hflt : ((⌊r⌋ : ℤ) : ℚ) < r := lt_of_le_of_ne (Int.floor_le r) hint
    have hceil : ⌈r⌉ = ⌊r⌋ + 1 := by
      have hle : ⌈r⌉ ≤ ⌊r⌋ + 1 := Int.ceil_le_floor_add_one r
      have hge : ⌊r⌋ + 1 ≤ ⌈r⌉ := Int.add_one_le_ceil_iff.mpr hflt
      omega
    have hN2 : 2 ≤ l.length := by
      by_contra hc
      have hlen1 : l.length = 1 := by omega
      have : r = 0 := by
        rw [hr, hlen1]
        norm_num
      rw [this] at hint
      simp at hint
    have hrlt : r < (l.length : ℚ) - 1 := by
      have hpos : (0 : ℚ) < (l.length : ℚ) - 1 := by
        have : (2 : ℚ) ≤ (l.length : ℚ) := by exact_mod_cast hN2
        linarith
      calc r = q * ((l.length : ℚ) - 1) := hr
        _ < 1 * ((l.length : ℚ) - 1) := by
            exact mul_lt_mul_of_pos_right h1 hpos
        _ = (l.length : ℚ) - 1 := one_mul _
    have hfl_lt : ⌊r⌋ < (l.length : ℤ) - 1 := by
      rw [Int.floor_lt]
      push_cast
      exact hrlt
    have hmin : min (⌊r⌋.toNat + 1) (l.length - 1) = ⌊r⌋.toNat + 1 := by
      apply min_eq_left
      omega
    have hhi : ⌈r⌉.toNat = ⌊r⌋.toNat + 1 := by
      rw [hceil]
      omega
    rw [hmin, hhi]

/-- C8 (amended): the reported "seconds" is the sorted samples' element
at index N/2 — the statistical median only for odd N — and the
p50/p95/p99 outputs of `percentile_us` are exactly the spec's linear
interpolation at fractional ranks q·(N-1) for q = 0.50, 0.95, 0.99. -/
theorem seconds_and_percentiles (l : List ℚ) (h : l ≠ []) :
    (l.length % 2 = 1 → reportedSeconds l = specMedian l) ∧
    percentile_us l =
      (specPercentile l (1/2), specPercentile l (19/20),
        specPercentile l (99/100)) := by
  constructor
  · intro hodd
    simp only [reportedSeconds, specMedian, if_pos hodd,
      List.length_insertionSort]
  · have hne : ¬l.isEmpty := by
      simpa [List.isEmpty_iff] using h
    simp only [percentile_us, if_neg hne]
    rw [percentilePick_eq_spec l (1/2) h (by norm_num) (by norm_num),
      percentilePick_eq_spec l (19/20) h (by norm_num) (by norm_num),
      percentilePick_eq_spec l (99/100) h (by norm_num) (by norm_num)]

/-- C8 (witness): three concrete samples. -/
theorem seconds_and_percentiles_witness :
    ([1, 2, 3] : List ℚ) ≠ [] ∧
    ((([1, 2, 3] : List ℚ).length % 2 = 1 →
        reportedSeconds [1, 2, 3] = specMedian [1, 2, 3]) ∧
      percentile_us [1, 2, 3] =
        (specPercentile [1, 2, 3] (1/2), specPercentile [1, 2, 3] (19/20),
          specPercentile [1, 2, 3] (99/100))) :=
  ⟨by decide, seconds_and_percentiles [1, 2, 3] (by decide)⟩

/-- C8 (counterexample): on the two samples {0, 1} the driver reports
1 (the upper middle of the sorted samples) while the statistical median
is 1/2, so "seconds" is not the median of the samples. -/
theorem seconds_is_not_the_median :
    reportedSeconds [0, 1] = 1 ∧ specMedian [0, 1] = 1/2 ∧
    reportedSeconds [0, 1] ≠ specMedian [0, 1] := by
  refine ⟨?_, ?_, ?_⟩ <;> with_unfolding_all decide

/-- C1 (amended): for every pattern name other than "band" and
"blockdiag", `make_random_csr` silently builds with the uniform
generator — the result is identical to passing "uniform" — and no
unrecognized-configuration condition exists. -/
theorem unknown_pattern_builds_uniform (m k : Nat) (d : ℚ) (p : String)
    (s : Nat) (h1 : p ≠ "band") (h2 : p ≠ "blockdiag") :
    make_random_csr m k d p s = make_random_csr m k d "uniform" s :=
  make_random_csr_default m k d p s h1 h2

/-- C1 (witness): the unrecognized name "nosuchpattern". -/
theorem unknown_pattern_builds_uniform_witness :
    ("nosuchpattern" ≠ "band") ∧ ("nosuchpattern" ≠ "blockdiag") ∧
    make_random_csr 1 1 1 "nosuchpattern" 0 =
      make_random_csr 1 1 1 "uniform" 0 :=
  ⟨by decide, by decide,
    unknown_pattern_builds_uniform 1 1 1 "nosuchpattern" 0 (by decide)
      (by decide)⟩

set_option maxRecDepth 100000 in
/-- C1 (counterexample): `make_random_csr(1, 1, 1.0, "triangular", 7)`
does not signal anything: it silently builds the same non-empty CSR the
"uniform" pattern builds. -/
theorem unknown_pattern_no_error :
    make_random_csr 1 1 1 "triangular" 7 = make_random_csr 1 1 1 "uniform" 7 ∧
    (make_random_csr 1 1 1 "triangular" 7).rowptr = [0, 1] ∧
    (make_random_csr 1 1 1 "triangular" 7).colidx = [0] := by
  refine ⟨make_random_csr_default 1 1 1 "triangular" 7 (by decide) (by decide),
    ?_, ?_⟩ <;> with_unfolding_all decide

set_option maxRecDepth 100000 in
/-- C2 (code bug): `make_random_csr(8, 2, 1.0, "blockdiag", 1)` violates
the CSR invariant. Rows 2..7 get a block start `bi * bk` at or beyond
`k`, so the code constructs `uniform_int_distribution(lo, hi)` with
`lo > hi` — undefined behaviour per the C++ standard, which with the
repository's toolchain (libstdc++/x86-64, modelled here) wraps the
range in `uint64_t` and returns arbitrary 32-bit values: six of the
eight column indices lie far outside `[0, 2)`. -/
theorem blockdiag_column_out_of_range :
    (make_random_csr 8 2 1 "blockdiag" 1).colidx =
      [0, 1, -319002822, -1856253514, 1693737218, 973008644, 1083776615,
        1980564448] ∧
    ¬(∀ c ∈ (make_random_csr 8 2 1 "blockdiag" 1).colidx,
        0 ≤ c ∧ c < 2) := by
  constructor <;> with_unfolding_all decide

set_option maxRecDepth 100000 in
/-- C3 (counterexample): the 4×4 density-1.0 "uniform" build with seed
42 is not fully dense: its rowptr is not [0, 4, 8, 12, 16]. The uniform
generator draws round(m·k·density) (row, column) pairs with
replacement and then deduplicates, so duplicate draws shrink rows below
k entries. -/
theorem uniform_4x4_seed42_not_dense :
    (make_random_csr 4 4 1 "uniform" 42).rowptr ≠ [0, 4, 8, 12, 16] := by
  with_unfolding_all decide

set_option maxRecDepth 100000 in
/-- C3 (amended): `make_random_csr(4, 4, 1.0, "uniform", 42)` yields the
CSR with rowptr [0, 4, 6, 8, 11] and row contents {0,1,2,3}, {0,3},
{1,2}, {0,2,3} — 11 of 16 cells, each row non-empty with strictly
increasing in-range columns, but not fully dense. -/
theorem uniform_4x4_seed42_actual :
    (make_random_csr 4 4 1 "uniform" 42).rowptr = [0, 4, 6, 8, 11] ∧
    (make_random_csr 4 4 1 "uniform" 42).colidx =
      [0, 1, 2, 3, 0, 3, 1, 2, 0, 2, 3] ∧
    csr_nnz (make_random_csr 4 4 1 "uniform" 42) = 11 := by
  refine ⟨?_, ?_, ?_⟩ <;> with_unfolding_all decide

end A2
